import Mathlib

/-!
Verification of the Timeline Composition Engine of the video-editor
repository.  The engine lives in the `ReactVideoEditor` component
(`react-video-editor.tsx`): the clip / text-overlay collections, the
append operations `addClip` / `addTextOverlay`, the duration aggregator
`updateTotalDuration`, the `Composition` builder, the initial-seed
effect, and the animated `TextOverlayComponent`.  Frame arithmetic in
the source uses JavaScript numbers, but every operation involved
(addition, `Math.max`, comparison) is exact on integers of this
magnitude, so frames are embedded as `Int`.
-/

/-- A video clip as in `types/types.ts` / the component state:
`id`, `start` (frame), `duration` (frames), `src`, `row`. -/
structure Clip where
  id : String
  start : Int
  duration : Int
  src : String
  row : Int
deriving DecidableEq

/-- A text overlay: `id`, `start`, `duration`, `text`, `row`. -/
structure TextOverlay where
  id : String
  start : Int
  duration : Int
  text : String
  row : Int
deriving DecidableEq

/-- The component state relevant to the engine: the two item
collections plus the stored `totalDuration` (initial `useState(1)`). -/
structure EditorState where
  clips : List Clip
  textOverlays : List TextOverlay
  totalDuration : Int
deriving DecidableEq

/-- A timeline item: element of the merged `[...clips, ...textOverlays]`
array, tagged by variant (the source discriminates by presence of the
`src` field). -/
inductive TItem where
  | clip (c : Clip)
  | text (t : TextOverlay)
deriving DecidableEq

/-- Start frame of a timeline item. -/
def TItem.start : TItem → Int
  | .clip c => c.start
  | .text t => t.start

/-- Duration (frames) of a timeline item. -/
def TItem.duration : TItem → Int
  | .clip c => c.duration
  | .text t => t.duration

/-- The merged item array `[...clips, ...textOverlays]` of a state. -/
def allItems (s : EditorState) : List TItem :=
  s.clips.map TItem.clip ++ s.textOverlays.map TItem.text

/-- The accumulator shape of the `reduce` in `addClip`/`addTextOverlay`:
its initial value is the bare object `{ start: 0, duration: 0 }`, and
only the `start` and `duration` fields of the accumulator are ever
read, so items are projected to this shape. -/
structure Anchor where
  start : Int
  duration : Int
deriving DecidableEq

/-- End frame `start + duration` of an anchor. -/
def Anchor.endFrame (a : Anchor) : Int := a.start + a.duration

/-- Projection of an item to its `(start, duration)` anchor. -/
def anchorOf (i : TItem) : Anchor := ⟨i.start, i.duration⟩

/-- The reduce callback
`(latest, item) => item.start + item.duration > latest.start + latest.duration ? item : latest`. -/
def pick (latest item : Anchor) : Anchor :=
  if item.start + item.duration > latest.start + latest.duration then item else latest

/-- The `lastItem` reduction of `addClip`/`addTextOverlay`:
`[...clips, ...textOverlays].reduce(pick, { start: 0, duration: 0 })`. -/
def lastItemOf (s : EditorState) : Anchor :=
  ((allItems s).map anchorOf).foldl pick ⟨0, 0⟩

/-- The clip source URL used by `addClip` and the seed effect. -/
def videoSrc : String :=
  "https://rwxrdxvxndclnqvznxfj.supabase.co/storage/v1/object/public/react-video-editor/open-source-video.mp4?t=2024-12-04T03%3A16%3A12.359Z"

/-- `updateTotalDuration`: the value stored into the `totalDuration`
state — `Math.max` of the two fold-maxima over item end frames, each
fold starting from `0`. -/
def updateTotalDuration (updatedClips : List Clip)
    (updatedTextOverlays : List TextOverlay) : Int :=
  let lastClipEnd :=
    updatedClips.foldl (fun m c => max m (c.start + c.duration)) 0
  let lastTextOverlayEnd :=
    updatedTextOverlays.foldl (fun m o => max m (o.start + o.duration)) 0
  max lastClipEnd lastTextOverlayEnd

/-- `addClip`: anchor at the latest end over both collections, append a
200-frame clip there, and recompute the total duration.  The two
`setState` calls of one handler are modelled as one atomic state
update. -/
def addClip (s : EditorState) : EditorState :=
  let lastItem := lastItemOf s
  let newClip : Clip :=
    { id := "clip-" ++ toString (s.clips.length + 1)
      start := lastItem.start + lastItem.duration
      duration := 200
      src := videoSrc
      row := 0 }
  { clips := s.clips ++ [newClip]
    textOverlays := s.textOverlays
    totalDuration := updateTotalDuration (s.clips ++ [newClip]) s.textOverlays }

/-- `addTextOverlay`: same anchor search, appends a 100-frame text
overlay. -/
def addTextOverlay (s : EditorState) : EditorState :=
  let lastItem := lastItemOf s
  let newOverlay : TextOverlay :=
    { id := "text-" ++ toString (s.textOverlays.length + 1)
      start := lastItem.start + lastItem.duration
      duration := 100
      text := "BUILD."
      row := 0 }
  { clips := s.clips
    textOverlays := s.textOverlays ++ [newOverlay]
    totalDuration := updateTotalDuration s.clips (s.textOverlays ++ [newOverlay]) }

/-- The initial component state: `useState([])`, `useState([])`,
`useState(1)`. -/
def initialState : EditorState := ⟨[], [], 1⟩

/-- The mount-time seed effect: when both collections are empty it
installs `clip-1` at `[0, 200)` and `text-1` at `[50, 150)` directly
(not through the append operations) and recomputes the duration. -/
def seedInitialItems (s : EditorState) : EditorState :=
  if s.clips = [] ∧ s.textOverlays = [] then
    let initialClip : Clip :=
      { id := "clip-1", start := 0, duration := 200, src := videoSrc, row := 0 }
    let initialTextOverlay : TextOverlay :=
      { id := "text-1", start := 50, duration := 100, text := "BUILD.", row := 0 }
    { clips := [initialClip]
      textOverlays := [initialTextOverlay]
      totalDuration := updateTotalDuration [initialClip] [initialTextOverlay] }
  else s

/-- An append operation, as triggered by the Add Clip / Add Text
buttons. -/
inductive Op where
  | mediaClip
  | textOverlay
deriving DecidableEq

/-- Apply one append operation. -/
def applyOp (op : Op) (s : EditorState) : EditorState :=
  match op with
  | .mediaClip => addClip s
  | .textOverlay => addTextOverlay s

/-- Run a sequence of append operations from the empty initial state. -/
def runOps (ops : List Op) : EditorState :=
  ops.foldl (fun s op => applyOp op s) initialState

/-- States reachable by the engine: the initial state, the seed effect,
and the two append operations. -/
inductive EngineReachable : EditorState → Prop where
  | init : EngineReachable initialState
  | seed {s} : EngineReachable s → EngineReachable (seedInitialItems s)
  | clipStep {s} : EngineReachable s → EngineReachable (addClip s)
  | textStep {s} : EngineReachable s → EngineReachable (addTextOverlay s)

/-- The `Composition` builder: merge both collections and sort
ascending by `start` with the comparator `(a, b) => a.start - b.start`
(a stable sort, as JavaScript `Array.prototype.sort` is).  Named
`buildComposition` because Mathlib already owns the source's name
`Composition`. -/
def buildComposition (clips : List Clip) (overlays : List TextOverlay) : List TItem :=
  (clips.map TItem.clip ++ overlays.map TItem.text).mergeSort
    (fun a b => decide (a.start ≤ b.start))

/-- The playback-boundary floor: the player is mounted with
`durationInFrames={Math.max(1, totalDuration)}` (`video-preview.tsx`). -/
def playerDurationInFrames (totalDuration : Int) : Int :=
  max 1 totalDuration

/-- Helper: the new clip constructed by `addClip` on state `s`. -/
def newClipFor (s : EditorState) : Clip :=
  { id := "clip-" ++ toString (s.clips.length + 1)
    start := (lastItemOf s).start + (lastItemOf s).duration
    duration := 200
    src := videoSrc
    row := 0 }

/-- Helper: the new overlay constructed by `addTextOverlay` on `s`. -/
def newOverlayFor (s : EditorState) : TextOverlay :=
  { id := "text-" ++ toString (s.textOverlays.length + 1)
    start := (lastItemOf s).start + (lastItemOf s).duration
    duration := 100
    text := "BUILD."
    row := 0 }


/-- Well-formedness of one item in an append-reachable state: frames
are non-negative, durations positive, and both are multiples of 100
(appends only ever place at previous end frames with durations 200 or
100). -/
def itemOk (i : TItem) : Prop :=
  0 ≤ i.start ∧ 0 < i.duration ∧ i.start % 100 = 0 ∧ i.duration % 100 = 0

/-- Two items occupy disjoint half-open frame intervals. -/
def NoOverlap (a b : TItem) : Prop :=
  a.start + a.duration ≤ b.start ∨ b.start + b.duration ≤ a.start

/-- Invariant maintained by the append operations from the empty
initial state. -/
def EngineInv (s : EditorState) : Prop :=
  (∀ i ∈ allItems s, itemOk i) ∧
  (allItems s).Pairwise NoOverlap ∧
  s.clips.Pairwise (fun a b => a.start < b.start) ∧
  s.textOverlays.Pairwise (fun a b => a.start < b.start) ∧
  (∀ i ∈ allItems s, i.start + i.duration ≤ s.totalDuration) ∧
  (allItems s = [] → s.totalDuration = 1) ∧
  (allItems s ≠ [] → ∃ i ∈ allItems s, i.start + i.duration = s.totalDuration)

/-- The state used to probe validation: its single clip has
`duration = 0` (an item the spec calls malformed). -/
def malformedState : EditorState :=
  { clips := [{ id := "clip-0", start := 0, duration := 0, src := videoSrc, row := 0 }]
    textOverlays := []
    totalDuration := 0 }

/-- Modelled from the spec: the easing value produced by the external
`remotion` `spring` helper (a dependency, not part of this repository),
described in the spec as a smooth monotone transition from `v0` to `v1`
over `durF` frames, parameterized by `fps`; a pure mathematical
function of its arguments. -/
def springModel (v0 v1 durF : ℚ) (frame fps : Int) : ℚ :=
  if durF ≤ 0 then v1
  else v0 + (v1 - v0) * min 1 (max 0 ((frame : ℚ) / durF))

/-- The animation outputs of `TextOverlayComponent` at one frame:
`opacity = spring(frame, fps, 0 → 1, 30 frames)` and
`scale = spring(frame, fps, 0.8 → 1, 30 frames)`. -/
def animate (frame fps : Int) : ℚ × ℚ :=
  (springModel 0 1 30 frame fps, springModel (4 / 5) 1 30 frame fps)

/-- Evaluating the animation along an arbitrary seek trace of frames
(the component re-renders from scratch at every frame; it holds no
state between renders). -/
def evalTrace (trace : List Int) (fps : Int) : List (ℚ × ℚ) :=
  trace.map (fun f => animate f fps)

theorem addClip_eq (s : EditorState) :
    addClip s =
      { clips := s.clips ++ [newClipFor s]
        textOverlays := s.textOverlays
        totalDuration := updateTotalDuration (s.clips ++ [newClipFor s]) s.textOverlays } :=
  rfl

theorem addTextOverlay_eq (s : EditorState) :
    addTextOverlay s =
      { clips := s.clips
        textOverlays := s.textOverlays ++ [newOverlayFor s]
        totalDuration := updateTotalDuration s.clips (s.textOverlays ++ [newOverlayFor s]) } :=
  rfl

theorem foldl_pick_mem (l : List Anchor) : ∀ a : Anchor, l.foldl pick a ∈ a :: l := by
  induction l with
  | nil => intro a; simp
  | cons x l ih =>
    intro a
    have h := ih (pick a x)
    have hp : pick a x = x ∨ pick a x = a := by
      unfold pick; split
      · exact Or.inl rfl
      · exact Or.inr rfl
    simp only [List.foldl_cons]
    rcases List.mem_cons.mp h with h1 | h1
    · rw [h1]
      rcases hp with h2 | h2 <;> rw [h2] <;> simp
    · simp [h1]

theorem foldl_pick_le (l : List Anchor) :
    ∀ a : Anchor, ∀ x ∈ a :: l, x.endFrame ≤ (l.foldl pick a).endFrame := by
  induction l with
  | nil =>
    intro a x hx
    simp only [List.mem_singleton] at hx
    simp [hx]
  | cons y l ih =>
    intro a x hx
    simp only [List.foldl_cons]
    have hy : a.endFrame ≤ (pick a y).endFrame ∧ y.endFrame ≤ (pick a y).endFrame := by
      simp only [pick, Anchor.endFrame]
      split <;> constructor <;> omega
    rcases List.mem_cons.mp hx with h1 | h1
    · exact le_trans (h1 ▸ hy.1) (ih (pick a y) _ (List.mem_cons_self _ _))
    · rcases List.mem_cons.mp h1 with h2 | h2
      · exact le_trans (h2 ▸ hy.2) (ih (pick a y) _ (List.mem_cons_self _ _))
      · exact ih (pick a y) x (List.mem_cons_of_mem _ h2)

theorem foldl_pick_first (l : List Anchor) :
    ∀ a : Anchor, ∃ l₁ l₂, a :: l = l₁ ++ (l.foldl pick a) :: l₂ ∧
      ∀ x ∈ l₁, x.endFrame < (l.foldl pick a).endFrame := by
  induction l with
  | nil => intro a; exact ⟨[], [], rfl, by simp⟩
  | cons y l ih =>
    intro a
    simp only [List.foldl_cons]
    by_cases h : y.start + y.duration > a.start + a.duration
    · have hp : pick a y = y := by simp [pick, h]
      obtain ⟨l₁, l₂, he, hlt⟩ := ih (pick a y)
      rw [hp] at he hlt
      refine ⟨a :: l₁, l₂, ?_, ?_⟩
      · rw [hp, List.cons_append, ← he]
      · rw [hp]
        have hyle : y.endFrame ≤ (l.foldl pick y).endFrame :=
          foldl_pick_le l y y (List.mem_cons_self _ _)
        have ha : a.endFrame < (l.foldl pick y).endFrame := by
          have hay : a.endFrame < y.endFrame := by
            simp only [Anchor.endFrame]; omega
          exact lt_of_lt_of_le hay hyle
        intro x hx
        rcases List.mem_cons.mp hx with rfl | hx
        · exact ha
        · exact hlt x hx
    · have hp : pick a y = a := by simp [pick, h]
      obtain ⟨l₁, l₂, he, hlt⟩ := ih (pick a y)
      rw [hp] at he hlt
      cases l₁ with
      | nil =>
        simp only [List.nil_append, List.cons.injEq] at he
        refine ⟨[], y :: l, ?_, by simp⟩
        rw [List.nil_append, hp, ← he.1]
      | cons b l₁ =>
        simp only [List.cons_append, List.cons.injEq] at he
        obtain ⟨hba, he⟩ := he
        refine ⟨a :: y :: l₁, l₂, ?_, ?_⟩
        · rw [hp]
          simp only [List.cons_append]
          conv_lhs => rw [he]
        · rw [hp]
          have hb := hlt b (List.mem_cons_self _ _)
          rw [← hba] at hb
          have hya : y.endFrame ≤ a.endFrame := by
            simp only [Anchor.endFrame]; omega
          intro x hx
          rcases List.mem_cons.mp hx with rfl | hx
          · exact hb
          · rcases List.mem_cons.mp hx with rfl | hx
            · exact lt_of_le_of_lt hya hb
            · exact hlt x (List.mem_cons_of_mem _ hx)

theorem foldl_max_init {α : Type} (f : α → Int) (l : List α) :
    ∀ init : Int, init ≤ l.foldl (fun m x => max m (f x)) init := by
  induction l with
  | nil => intro i; simp
  | cons y l ih =>
    intro i
    simp only [List.foldl_cons]
    exact le_trans (le_max_left _ _) (ih _)

theorem foldl_max_le {α : Type} (f : α → Int) (l : List α) :
    ∀ init : Int, ∀ x ∈ l, f x ≤ l.foldl (fun m x => max m (f x)) init := by
  induction l with
  | nil => intro i x hx; simp at hx
  | cons y l ih =>
    intro i x hx
    simp only [List.foldl_cons]
    rcases List.mem_cons.mp hx with rfl | hx
    · exact le_trans (le_max_right _ _) (foldl_max_init f l _)
    · exact ih _ x hx

theorem foldl_max_eq {α : Type} (f : α → Int) (l : List α) :
    ∀ init : Int, l.foldl (fun m x => max m (f x)) init = init ∨
      ∃ x ∈ l, l.foldl (fun m x => max m (f x)) init = f x := by
  induction l with
  | nil => intro i; exact Or.inl rfl
  | cons y l ih =>
    intro i
    simp only [List.foldl_cons]
    rcases ih (max i (f y)) with h | ⟨x, hx, hex⟩
    · rw [h]
      by_cases hc : i ≤ f y
      · exact Or.inr ⟨y, List.mem_cons_self _ _, max_eq_right hc⟩
      · exact Or.inl (max_eq_left (le_of_not_le hc))
    · exact Or.inr ⟨x, List.mem_cons_of_mem _ hx, hex⟩

theorem mem_allItems_clip {s : EditorState} {c : Clip} (h : c ∈ s.clips) :
    TItem.clip c ∈ allItems s :=
  List.mem_append_left _ (List.mem_map_of_mem _ h)

theorem mem_allItems_text {s : EditorState} {t : TextOverlay} (h : t ∈ s.textOverlays) :
    TItem.text t ∈ allItems s :=
  List.mem_append_right _ (List.mem_map_of_mem _ h)

theorem lastItemOf_nonneg (s : EditorState) : 0 ≤ (lastItemOf s).endFrame := by
  have h := foldl_pick_le ((allItems s).map anchorOf) ⟨0, 0⟩ ⟨0, 0⟩
    (List.mem_cons_self _ _)
  simpa [Anchor.endFrame, lastItemOf] using h

theorem lastItemOf_ge (s : EditorState) :
    ∀ i ∈ allItems s, i.start + i.duration ≤ (lastItemOf s).endFrame := by
  intro i hi
  have h := foldl_pick_le ((allItems s).map anchorOf) ⟨0, 0⟩ (anchorOf i)
    (List.mem_cons_of_mem _ (List.mem_map_of_mem _ hi))
  simpa [Anchor.endFrame, anchorOf, lastItemOf] using h

theorem lastItemOf_mod (s : EditorState) (h : ∀ i ∈ allItems s, itemOk i) :
    (lastItemOf s).endFrame % 100 = 0 := by
  have hm : lastItemOf s ∈ (⟨0, 0⟩ : Anchor) :: (allItems s).map anchorOf :=
    foldl_pick_mem ((allItems s).map anchorOf) ⟨0, 0⟩
  rcases List.mem_cons.mp hm with h1 | h1
  · rw [h1]; decide
  · obtain ⟨i, hi, hia⟩ := List.mem_map.mp h1
    obtain ⟨-, -, hs, hd⟩ := h i hi
    rw [← hia]
    simp only [anchorOf, Anchor.endFrame]
    omega

/-- Inserting an element in the middle of a pairwise list, related to
everything on both sides, keeps the list pairwise. -/
theorem pairwise_insert_middle {α : Type} {R : α → α → Prop} {l₁ l₂ : List α} {e : α}
    (h : (l₁ ++ l₂).Pairwise R) (h1 : ∀ a ∈ l₁, R a e) (h2 : ∀ b ∈ l₂, R e b) :
    (l₁ ++ e :: l₂).Pairwise R := by
  rw [List.pairwise_append] at h ⊢
  obtain ⟨hp1, hp2, hc⟩ := h
  refine ⟨hp1, List.pairwise_cons.mpr ⟨h2, hp2⟩, ?_⟩
  intro a ha b hb
  rcases List.mem_cons.mp hb with rfl | hb
  · exact h1 a ha
  · exact hc a ha b hb

theorem updateTotalDuration_ge_clip (clips : List Clip) (overlays : List TextOverlay)
    (c : Clip) (h : c ∈ clips) :
    c.start + c.duration ≤ updateTotalDuration clips overlays := by
  have hb := foldl_max_le (fun c : Clip => c.start + c.duration) clips 0 c h
  simp only [updateTotalDuration]
  exact le_trans hb (le_max_left _ _)

theorem updateTotalDuration_ge_text (clips : List Clip) (overlays : List TextOverlay)
    (t : TextOverlay) (h : t ∈ overlays) :
    t.start + t.duration ≤ updateTotalDuration clips overlays := by
  have hb := foldl_max_le (fun o : TextOverlay => o.start + o.duration) overlays 0 t h
  simp only [updateTotalDuration]
  exact le_trans hb (le_max_right _ _)

theorem updateTotalDuration_nonneg (clips : List Clip) (overlays : List TextOverlay) :
    0 ≤ updateTotalDuration clips overlays := by
  have hb := foldl_max_init (fun c : Clip => c.start + c.duration) clips 0
  simp only [updateTotalDuration]
  exact le_trans hb (le_max_left _ _)

theorem updateTotalDuration_attained (clips : List Clip) (overlays : List TextOverlay) :
    updateTotalDuration clips overlays = 0 ∨
    (∃ c ∈ clips, updateTotalDuration clips overlays = c.start + c.duration) ∨
    (∃ o ∈ overlays, updateTotalDuration clips overlays = o.start + o.duration) := by
  simp only [updateTotalDuration]
  rcases le_total (overlays.foldl (fun m o => max m (o.start + o.duration)) 0)
      (clips.foldl (fun m c => max m (c.start + c.duration)) 0) with hba | hba
  · rw [max_eq_left hba]
    rcases foldl_max_eq (fun c : Clip => c.start + c.duration) clips 0 with h0 | ⟨c, hc, hce⟩
    · exact Or.inl h0
    · exact Or.inr (Or.inl ⟨c, hc, hce⟩)
  · rw [max_eq_right hba]
    rcases foldl_max_eq (fun o : TextOverlay => o.start + o.duration) overlays 0 with h0 | ⟨o, ho, hoe⟩
    · exact Or.inl h0
    · exact Or.inr (Or.inr ⟨o, ho, hoe⟩)

theorem engineInv_addClip {s : EditorState} (h : EngineInv s) : EngineInv (addClip s) := by
  obtain ⟨hok, hpw, hcs, hts, hle, hemp, hex⟩ := h
  have hMge := lastItemOf_ge s
  have hM0 := lastItemOf_nonneg s
  have hMmod := lastItemOf_mod s hok
  set n := newClipFor s with hn
  have hns : n.start = (lastItemOf s).endFrame := rfl
  have hnd : n.duration = 200 := rfl
  have hclips : (addClip s).clips = s.clips ++ [n] := rfl
  have hovl : (addClip s).textOverlays = s.textOverlays := rfl
  have htd : (addClip s).totalDuration =
      updateTotalDuration (s.clips ++ [n]) s.textOverlays := rfl
  have hA : allItems (addClip s) =
      s.clips.map TItem.clip ++ TItem.clip n :: s.textOverlays.map TItem.text := by
    simp [allItems, hclips, hovl, List.map_append]
  have hokn : itemOk (TItem.clip n) := by
    simp only [itemOk, TItem.start, TItem.duration, hns, hnd]
    exact ⟨hM0, by decide, hMmod, by decide⟩
  refine ⟨?_, ?_, ?_, ?_, ?_, ?_, ?_⟩
  · intro i hi
    rw [hA] at hi
    rcases List.mem_append.mp hi with hi | hi
    · exact hok i (List.mem_append_left _ hi)
    · rcases List.mem_cons.mp hi with rfl | hi
      · exact hokn
      · exact hok i (List.mem_append_right _ hi)
  · rw [hA]
    refine pairwise_insert_middle hpw ?_ ?_
    · intro a ha
      have haS := hMge a (List.mem_append_left _ ha)
      refine Or.inl ?_
      simpa [TItem.start, hns] using haS
    · intro b hb
      have hbS := hMge b (List.mem_append_right _ hb)
      refine Or.inr ?_
      simpa [TItem.start, hns] using hbS
  · rw [hclips, List.pairwise_append]
    refine ⟨hcs, by simp, ?_⟩
    intro c hc b hb
    simp only [List.mem_singleton] at hb
    subst hb
    have h1 := hok (TItem.clip c) (mem_allItems_clip hc)
    have h2 := hMge (TItem.clip c) (mem_allItems_clip hc)
    simp only [itemOk, TItem.start, TItem.duration] at h1 h2
    omega
  · rw [hovl]
    exact hts
  · intro i hi
    rw [hA] at hi
    rw [htd]
    rcases List.mem_append.mp hi with hi | hi
    · obtain ⟨c, hc, rfl⟩ := List.mem_map.mp hi
      simpa [TItem.start, TItem.duration] using
        updateTotalDuration_ge_clip (s.clips ++ [n]) s.textOverlays c
          (List.mem_append_left [n] hc)
    · rcases List.mem_cons.mp hi with rfl | hi
      · simpa [TItem.start, TItem.duration] using
          updateTotalDuration_ge_clip (s.clips ++ [n]) s.textOverlays n
            (List.mem_append_right s.clips (List.mem_cons_self n []))
      · obtain ⟨t, ht, rfl⟩ := List.mem_map.mp hi
        simpa [TItem.start, TItem.duration] using
          updateTotalDuration_ge_text (s.clips ++ [n]) s.textOverlays t ht
  · intro hcontra
    rw [hA] at hcontra
    simp at hcontra
  · intro hne
    rw [htd]
    have hge : (200 : Int) ≤ updateTotalDuration (s.clips ++ [n]) s.textOverlays := by
      have hb := updateTotalDuration_ge_clip (s.clips ++ [n]) s.textOverlays n
        (List.mem_append_right s.clips (List.mem_cons_self n []))
      omega
    rcases updateTotalDuration_attained (s.clips ++ [n]) s.textOverlays with
      h0 | ⟨c, hc, hce⟩ | ⟨t, ht, hte⟩
    · omega
    · refine ⟨TItem.clip c, ?_, ?_⟩
      · rw [hA]
        rcases List.mem_append.mp hc with hc | hc
        · exact List.mem_append_left _ (List.mem_map_of_mem _ hc)
        · simp only [List.mem_singleton] at hc
          subst hc
          exact List.mem_append_right _ (List.mem_cons_self _ _)
      · simp only [TItem.start, TItem.duration]
        omega
    · refine ⟨TItem.text t, ?_, ?_⟩
      · rw [hA]
        exact List.mem_append_right _
          (List.mem_cons_of_mem _ (List.mem_map_of_mem _ ht))
      · simp only [TItem.start, TItem.duration]
        omega

theorem engineInv_addTextOverlay {s : EditorState} (h : EngineInv s) :
    EngineInv (addTextOverlay s) := by
  obtain ⟨hok, hpw, hcs, hts, hle, hemp, hex⟩ := h
  have hMge := lastItemOf_ge s
  have hM0 := lastItemOf_nonneg s
  have hMmod := lastItemOf_mod s hok
  set t := newOverlayFor s with ht
  have hts0 : t.start = (lastItemOf s).endFrame := rfl
  have htd0 : t.duration = 100 := rfl
  have hclips : (addTextOverlay s).clips = s.clips := rfl
  have hovl : (addTextOverlay s).textOverlays = s.textOverlays ++ [t] := rfl
  have htd : (addTextOverlay s).totalDuration =
      updateTotalDuration s.clips (s.textOverlays ++ [t]) := rfl
  have hA : allItems (addTextOverlay s) =
      (s.clips.map TItem.clip ++ s.textOverlays.map TItem.text) ++ [TItem.text t] := by
    simp [allItems, hclips, hovl, List.map_append]
  have hokt : itemOk (TItem.text t) := by
    simp only [itemOk, TItem.start, TItem.duration, hts0, htd0]
    exact ⟨hM0, by decide, hMmod, by decide⟩
  refine ⟨?_, ?_, ?_, ?_, ?_, ?_, ?_⟩
  · intro i hi
    rw [hA] at hi
    rcases List.mem_append.mp hi with hi | hi
    · exact hok i hi
    · simp only [List.mem_singleton] at hi
      subst hi
      exact hokt
  · rw [hA]
    refine pairwise_insert_middle ?_ ?_ ?_
    · simpa using hpw
    · intro a ha
      have haS := hMge a ha
      refine Or.inl ?_
      simpa [TItem.start, hts0] using haS
    · intro b hb
      exact absurd hb (List.not_mem_nil b)
  · rw [hclips]
    exact hcs
  · rw [hovl, List.pairwise_append]
    refine ⟨hts, by simp, ?_⟩
    intro o ho b hb
    simp only [List.mem_singleton] at hb
    subst hb
    have h1 := hok (TItem.text o) (mem_allItems_text ho)
    have h2 := hMge (TItem.text o) (mem_allItems_text ho)
    simp only [itemOk, TItem.start, TItem.duration] at h1 h2
    omega
  · intro i hi
    rw [hA] at hi
    rw [htd]
    rcases List.mem_append.mp hi with hi | hi
    · rcases List.mem_append.mp hi with hi | hi
      · obtain ⟨c, hc, rfl⟩ := List.mem_map.mp hi
        simpa [TItem.start, TItem.duration] using
          updateTotalDuration_ge_clip s.clips (s.textOverlays ++ [t]) c hc
      · obtain ⟨o, ho, rfl⟩ := List.mem_map.mp hi
        simpa [TItem.start, TItem.duration] using
          updateTotalDuration_ge_text s.clips (s.textOverlays ++ [t]) o
            (List.mem_append_left [t] ho)
    · simp only [List.mem_singleton] at hi
      subst hi
      simpa [TItem.start, TItem.duration] using
        updateTotalDuration_ge_text s.clips (s.textOverlays ++ [t]) t
          (List.mem_append_right s.textOverlays (List.mem_cons_self t []))
  · intro hcontra
    rw [hA] at hcontra
    simp at hcontra
  · intro hne
    rw [htd]
    have hge : (100 : Int) ≤ updateTotalDuration s.clips (s.textOverlays ++ [t]) := by
      have hb := updateTotalDuration_ge_text s.clips (s.textOverlays ++ [t]) t
        (List.mem_append_right s.textOverlays (List.mem_cons_self t []))
      omega
    rcases updateTotalDuration_attained s.clips (s.textOverlays ++ [t]) with
      h0 | ⟨c, hc, hce⟩ | ⟨o, ho, hoe⟩
    · omega
    · refine ⟨TItem.clip c, ?_, ?_⟩
      · rw [hA]
        exact List.mem_append_left _ (List.mem_append_left _ (List.mem_map_of_mem _ hc))
      · simp only [TItem.start, TItem.duration]
        omega
    · refine ⟨TItem.text o, ?_, ?_⟩
      · rw [hA]
        rcases List.mem_append.mp ho with ho | ho
        · exact List.mem_append_left _ (List.mem_append_right _ (List.mem_map_of_mem _ ho))
        · simp only [List.mem_singleton] at ho
          subst ho
          exact List.mem_append_right _ (List.mem_cons_self _ _)
      · simp only [TItem.start, TItem.duration]
        omega

theorem engineInv_applyOp (op : Op) {s : EditorState} (h : EngineInv s) :
    EngineInv (applyOp op s) := by
  cases op with
  | mediaClip => exact engineInv_addClip h
  | textOverlay => exact engineInv_addTextOverlay h

theorem engineInv_initial : EngineInv initialState := by
  refine ⟨?_, ?_, ?_, ?_, ?_, ?_, ?_⟩ <;> simp [initialState, allItems]

theorem engineInv_runOps (ops : List Op) : EngineInv (runOps ops) := by
  suffices h : ∀ (l : List Op) (s : EditorState), EngineInv s →
      EngineInv (l.foldl (fun s op => applyOp op s) s) from
    h ops initialState engineInv_initial
  intro l
  induction l with
  | nil => intro s hs; exact hs
  | cons op l ih =>
    intro s hs
    exact ih _ (engineInv_applyOp op hs)

/-- C1: for every sequence of `appendMediaClip`/`appendTextOverlay`
calls starting from the empty collections, no two items in the union of
clips and text overlays have overlapping half-open frame intervals
`[start, start + duration)`. -/
theorem append_sequences_nonoverlap : ∀ ops : List Op,
    (allItems (runOps ops)).Pairwise
      (fun a b => a.start + a.duration ≤ b.start ∨ b.start + b.duration ≤ a.start) :=
  fun ops => (engineInv_runOps ops).2.1

/-- C2: after every mutation (every append call), the stored
`totalDuration` equals the maximum of `start + duration` over all
current items — the item set is never empty after a mutation, so the
`1`-if-empty branch only describes the untouched initial state. -/
theorem totalDuration_consistency :
    (runOps []).totalDuration = 1 ∧
    ∀ (ops : List Op) (op : Op),
      allItems (runOps (ops ++ [op])) ≠ [] ∧
      (∀ i ∈ allItems (runOps (ops ++ [op])),
        i.start + i.duration ≤ (runOps (ops ++ [op])).totalDuration) ∧
      ∃ i ∈ allItems (runOps (ops ++ [op])),
        i.start + i.duration = (runOps (ops ++ [op])).totalDuration := by
  refine ⟨rfl, ?_⟩
  intro ops op
  have hrun : runOps (ops ++ [op]) = applyOp op (runOps ops) := by
    simp [runOps, List.foldl_append]
  have hne : allItems (runOps (ops ++ [op])) ≠ [] := by
    rw [hrun]
    cases op <;> simp [applyOp, addClip, addTextOverlay, allItems]
  have hinv := engineInv_runOps (ops ++ [op])
  exact ⟨hne, hinv.2.2.2.2.1, hinv.2.2.2.2.2.2 hne⟩

/-- C3: from empty, `appendMediaClip` yields exactly
`clip-1 = [0, 200)` on row 0 with `totalDuration = 200`, and a
subsequent `appendTextOverlay` yields exactly `text-1 = [200, 300)` on
row 0 with `totalDuration = 300`. -/
theorem first_two_appends_scenario :
    (runOps [Op.mediaClip]).clips.map (fun c => (c.id, c.start, c.duration, c.row)) =
      [("clip-1", 0, 200, 0)] ∧
    (runOps [Op.mediaClip]).totalDuration = 200 ∧
    (runOps [Op.mediaClip, Op.textOverlay]).textOverlays.map
        (fun t => (t.id, t.start, t.duration, t.row)) =
      [("text-1", 200, 100, 0)] ∧
    (runOps [Op.mediaClip, Op.textOverlay]).totalDuration = 300 := by
  decide

/-- C4 counterexample: the seeded state is reachable by the engine (the
mount-time seed effect), yet its overlay collection — containing
`text-1` at start 50 — cannot be produced by any sequence of append
operations, whose items always start at multiples of 100. -/
theorem seed_state_not_append_producible :
    EngineReachable (seedInitialItems initialState) ∧
    ¬ ∃ ops : List Op,
        (runOps ops).textOverlays = (seedInitialItems initialState).textOverlays := by
  constructor
  · exact EngineReachable.seed EngineReachable.init
  · rintro ⟨ops, h⟩
    have hinv := engineInv_runOps ops
    have hmem : (⟨"text-1", 50, 100, "BUILD.", 0⟩ : TextOverlay) ∈
        (runOps ops).textOverlays := by
      rw [h]
      decide
    have hok := hinv.1 _ (mem_allItems_text hmem)
    simp [itemOk, TItem.start, TItem.duration] at hok

/-- C4 (amended): items are created only by the append operations and
by the one-time initial-seed effect; no engine step edits, moves, or
deletes existing items — each step extends the collections at the end
or leaves them unchanged. -/
theorem engine_steps_append_only : ∀ s : EditorState,
    ((addClip s).textOverlays = s.textOverlays ∧
      ∃ l, (addClip s).clips = s.clips ++ l) ∧
    ((addTextOverlay s).clips = s.clips ∧
      ∃ l, (addTextOverlay s).textOverlays = s.textOverlays ++ l) ∧
    (∃ l₁ l₂, (seedInitialItems s).clips = s.clips ++ l₁ ∧
      (seedInitialItems s).textOverlays = s.textOverlays ++ l₂) := by
  intro s
  refine ⟨⟨rfl, ⟨[newClipFor s], rfl⟩⟩, ⟨rfl, ⟨[newOverlayFor s], rfl⟩⟩, ?_⟩
  by_cases hc : s.clips = [] ∧ s.textOverlays = []
  · refine ⟨[⟨"clip-1", 0, 200, videoSrc, 0⟩],
      [⟨"text-1", 50, 100, "BUILD.", 0⟩], ?_, ?_⟩ <;>
      simp [seedInitialItems, hc.1, hc.2]
  · exact ⟨[], [], by simp [seedInitialItems, hc], by simp [seedInitialItems, hc]⟩

/-- C5: the builder output is sorted non-decreasing by `start`, and for
any start value the items carrying it appear in the output in exactly
their merged (append) order — the stable tie-break. -/
theorem composition_sorted_and_stable :
    ∀ (clips : List Clip) (overlays : List TextOverlay),
      (buildComposition clips overlays).Pairwise (fun a b => a.start ≤ b.start) ∧
      ∀ v : Int,
        (buildComposition clips overlays).filter (fun i => i.start == v) =
          (clips.map TItem.clip ++ overlays.map TItem.text).filter
            (fun i => i.start == v) := by
  intro clips overlays
  have htrans : ∀ a b c : TItem, (fun a b : TItem => decide (a.start ≤ b.start)) a b →
      (fun a b : TItem => decide (a.start ≤ b.start)) b c →
      (fun a b : TItem => decide (a.start ≤ b.start)) a c := by
    intro a b c hab hbc
    simp only [decide_eq_true_eq] at hab hbc ⊢
    omega
  have htotal : ∀ a b : TItem, ((fun a b : TItem => decide (a.start ≤ b.start)) a b ||
      (fun a b : TItem => decide (a.start ≤ b.start)) b a) := by
    intro a b
    simp only [Bool.or_eq_true, decide_eq_true_eq]
    omega
  constructor
  · have h := List.sorted_mergeSort htrans htotal
      (clips.map TItem.clip ++ overlays.map TItem.text)
    exact h.imp fun hab => of_decide_eq_true hab
  · intro v
    have hmem : ∀ x ∈ (clips.map TItem.clip ++ overlays.map TItem.text).filter
        (fun i => i.start == v), (fun i : TItem => i.start == v) x :=
      fun x hx => (List.mem_filter.mp hx).2
    have hpc : ((clips.map TItem.clip ++ overlays.map TItem.text).filter
        (fun i => i.start == v)).Pairwise
          (fun a b : TItem => decide (a.start ≤ b.start)) := by
      refine List.pairwise_of_forall_mem_list ?_
      intro a ha b hb
      have ha2 := (List.mem_filter.mp ha).2
      have hb2 := (List.mem_filter.mp hb).2
      simp only [beq_iff_eq] at ha2 hb2
      simp only [decide_eq_true_eq]
      omega
    have hsub : List.Sublist
        ((clips.map TItem.clip ++ overlays.map TItem.text).filter
          (fun i : TItem => i.start == v))
        (clips.map TItem.clip ++ overlays.map TItem.text) :=
      List.filter_sublist _
    have h2 := List.sublist_mergeSort htrans htotal hpc hsub
    have h3 := h2.filter (fun i : TItem => i.start == v)
    rw [List.filter_eq_self.mpr hmem] at h3
    have hlen : (((clips.map TItem.clip ++ overlays.map TItem.text).mergeSort
        (fun a b => decide (a.start ≤ b.start))).filter
          (fun i : TItem => i.start == v)).length =
        ((clips.map TItem.clip ++ overlays.map TItem.text).filter
          (fun i : TItem => i.start == v)).length :=
      ((List.mergeSort_perm (clips.map TItem.clip ++ overlays.map TItem.text)
        (fun a b => decide (a.start ≤ b.start))).filter
          (fun i : TItem => i.start == v)).length_eq
    exact (h3.eq_of_length hlen.symm).symm

/-- C6: the anchor reduction keeps the accumulator on end-frame ties
(first-seen wins): `pick` returns its left operand against any item
with the same end frame, the reduction result is the first element of
the accumulator chain attaining the maximum end frame, and both append
operations place the new item at `anchor.start + anchor.duration`. -/
theorem anchor_tiebreak_first_seen :
    (∀ (a : Anchor) (d : Int), pick a ⟨d, a.start + a.duration - d⟩ = a) ∧
    (∀ s : EditorState, ∃ l₁ l₂,
      (⟨0, 0⟩ : Anchor) :: (allItems s).map anchorOf = l₁ ++ lastItemOf s :: l₂ ∧
      (∀ x ∈ l₁, x.endFrame < (lastItemOf s).endFrame) ∧
      ∀ x ∈ (⟨0, 0⟩ : Anchor) :: (allItems s).map anchorOf,
        x.endFrame ≤ (lastItemOf s).endFrame) ∧
    ∀ s : EditorState,
      (∃ n : Clip, (addClip s).clips = s.clips ++ [n] ∧
        n.start = (lastItemOf s).start + (lastItemOf s).duration) ∧
      ∃ t : TextOverlay, (addTextOverlay s).textOverlays = s.textOverlays ++ [t] ∧
        t.start = (lastItemOf s).start + (lastItemOf s).duration := by
  refine ⟨?_, ?_, ?_⟩
  · intro a d
    simp only [pick]
    rw [if_neg (by omega)]
  · intro s
    obtain ⟨l₁, l₂, he, hlt⟩ := foldl_pick_first ((allItems s).map anchorOf) ⟨0, 0⟩
    exact ⟨l₁, l₂, he, hlt, fun x hx => foldl_pick_le _ _ x hx⟩
  · intro s
    exact ⟨⟨newClipFor s, rfl, rfl⟩, ⟨newOverlayFor s, rfl, rfl⟩⟩

/-- C7: the aggregator's stored result is the maximum of the two
fold-maxima `max(0, max start+duration)` over clips and overlays, is
`0` (not `1`) when both collections are empty, and the floor of 1 is
applied only at the player boundary `Math.max(1, totalDuration)`. -/
theorem aggregator_and_playback_floor :
    (∀ (clips : List Clip) (overlays : List TextOverlay),
      updateTotalDuration clips overlays =
        max (clips.foldl (fun m c => max m (c.start + c.duration)) 0)
          (overlays.foldl (fun m o => max m (o.start + o.duration)) 0) ∧
      0 ≤ updateTotalDuration clips overlays ∧
      (∀ c ∈ clips, c.start + c.duration ≤ updateTotalDuration clips overlays) ∧
      (∀ o ∈ overlays, o.start + o.duration ≤ updateTotalDuration clips overlays) ∧
      (updateTotalDuration clips overlays = 0 ∨
        (∃ c ∈ clips, updateTotalDuration clips overlays = c.start + c.duration) ∨
        ∃ o ∈ overlays, updateTotalDuration clips overlays = o.start + o.duration)) ∧
    updateTotalDuration [] [] = 0 ∧
    (∀ td : Int, playerDurationInFrames td = max 1 td) ∧
    playerDurationInFrames (updateTotalDuration [] []) = 1 := by
  refine ⟨?_, by decide, fun td => rfl, by decide⟩
  intro clips overlays
  exact ⟨rfl, updateTotalDuration_nonneg clips overlays,
    fun c hc => updateTotalDuration_ge_clip clips overlays c hc,
    fun o ho => updateTotalDuration_ge_text clips overlays o ho,
    updateTotalDuration_attained clips overlays⟩

/-- C8: the code performs no validation — `addClip` applied to a state
whose clip has `duration = 0` (a malformed item under the spec's
`InvalidItem` rule) returns normally, keeps the malformed item, and
appends a new clip; no error is surfaced anywhere (the operation is a
total function into `EditorState`). -/
theorem addClip_accepts_invalid_item :
    (addClip malformedState).clips.map (fun c => (c.id, c.start, c.duration, c.row)) =
      [("clip-0", 0, 0, 0), ("clip-2", 0, 200, 0)] ∧
    (addClip malformedState).textOverlays = [] ∧
    (addClip malformedState).totalDuration = 200 := by
  decide

/-- C9: the overlay animation outputs are a pure function of
`(frame, fps)`: identical inputs give identical outputs, and along any
seek trace (frames visited in any order, including backward) the output
at a position depends only on the frame there. -/
theorem overlay_animator_pure :
    (∀ f₁ fps₁ f₂ fps₂ : Int, f₁ = f₂ → fps₁ = fps₂ →
      animate f₁ fps₁ = animate f₂ fps₂) ∧
    ∀ (tr : List Int) (fps : Int) (i j : Nat),
      tr[i]? = tr[j]? →
      (evalTrace tr fps)[i]? = (evalTrace tr fps)[j]? := by
  constructor
  · intro f₁ fps₁ f₂ fps₂ h1 h2
    rw [h1, h2]
  · intro tr fps i j h
    simp only [evalTrace, List.getElem?_map, h]

/-- Witness for C9 at a concrete backward-seek trace. -/
theorem overlay_animator_pure_witness :
    animate 0 30 = animate 0 30 ∧
    (evalTrace [0, 30, 0] 30)[0]? = (evalTrace [0, 30, 0] 30)[2]? :=
  ⟨overlay_animator_pure.1 0 30 0 30 rfl rfl,
    overlay_animator_pure.2 [0, 30, 0] 30 0 2 rfl⟩

/-- C10: in every append-reachable state each collection is strictly
sorted by `start`, and each append places its new item at the end of
its collection with a start at least the end frame of every item
already present in either collection. -/
theorem collections_sorted_append_at_end :
    ∀ (ops : List Op) (op : Op),
      (runOps ops).clips.Pairwise (fun a b => a.start < b.start) ∧
      (runOps ops).textOverlays.Pairwise (fun a b => a.start < b.start) ∧
      ((∃ n : Clip, (applyOp op (runOps ops)).clips = (runOps ops).clips ++ [n] ∧
          (applyOp op (runOps ops)).textOverlays = (runOps ops).textOverlays ∧
          ∀ i ∈ allItems (runOps ops), i.start + i.duration ≤ n.start) ∨
        ∃ t : TextOverlay, (applyOp op (runOps ops)).clips = (runOps ops).clips ∧
          (applyOp op (runOps ops)).textOverlays = (runOps ops).textOverlays ++ [t] ∧
          ∀ i ∈ allItems (runOps ops), i.start + i.duration ≤ t.start) := by
  intro ops op
  have hinv := engineInv_runOps ops
  refine ⟨hinv.2.2.1, hinv.2.2.2.1, ?_⟩
  cases op with
  | mediaClip =>
    refine Or.inl ⟨newClipFor (runOps ops), rfl, rfl, ?_⟩
    intro i hi
    have hb := lastItemOf_ge (runOps ops) i hi
    simpa [newClipFor, Anchor.endFrame] using hb
  | textOverlay =>
    refine Or.inr ⟨newOverlayFor (runOps ops), rfl, rfl, ?_⟩
    intro i hi
    have hb := lastItemOf_ge (runOps ops) i hi
    simpa [newOverlayFor, Anchor.endFrame] using hb
